import Mathlib

/-!
Verification of the function-runner harness specification against a shallow
embedding of the source.

The embedding covers:
* the scale-limits analyzer (`src/scale_limits_analyzer.rs`): stacks are
  modelled as Lean lists growing at the head (a `Vec` grows at the end; the
  order is mirrored, `push` is `cons`, `pop`/`last` act on the head), the
  `rates` hash map is modelled as an association list without duplicate keys,
  and `f64` values are modelled as exact rationals;
* provider classification (`src/validated_module.rs`, `src/io.rs`);
* `ValidatedModule::new` (`src/validated_module.rs`);
* the exit-code mapping and log assembly of `run` (`src/engine.rs`);
* the `MemoryLimiter` (`src/engine.rs`);
* the bounded `LogStream` (`src/logs.rs`), with guest writes modelled as the
  character sequences obtained from lossy UTF-8 decoding;
* `BytesContainer::new` (`src/container.rs`), with the serde/rmp decoders
  passed in as explicit arguments standing for the external library calls.
-/

namespace FunctionRunner

/-- A `serde_json::Value`. Numbers are modelled as exact rationals. -/
inductive Json where
  | null
  | bool (b : Bool)
  | num (q : ℚ)
  | str (s : String)
  | arr (elems : List Json)
  | obj (fields : List (String × Json))

/-- Lookup of a key in a JSON object's field map (`serde_json::Map::get`). -/
def getField : List (String × Json) → String → Option Json
  | [], _ => none
  | e :: rest, key => if e.1 = key then some e.2 else getField rest key

/-- The response-key path from the current field to the query root
(head = innermost key, mirroring `path_stack` read from the top). -/
abbrev Path := List String

/-- Key of the `rates` map in `ScaleLimits`: a path plus the parent index. -/
structure PathWithIndex where
  path : Path
  index : ℕ
  deriving DecidableEq

/-- The entries of the `rates : HashMap<PathWithIndex, f64>` field, as an
association list. Iteration order of the hash map is unspecified in Rust; all
results proved below are insensitive to it. -/
abbrev Rates := List (PathWithIndex × ℚ)

def lookupRate : Rates → PathWithIndex → Option ℚ
  | [], _ => none
  | e :: rest, k => if e.1 = k then some e.2 else lookupRate rest k

def setRate : Rates → PathWithIndex → ℚ → Rates
  | [], _, _ => []
  | e :: rest, k, v => if e.1 = k then (k, v) :: setRate rest k v else e :: setRate rest k v

/-- `let entry = self.rates.entry(path_with_index).or_default();`
`*entry = entry.max(increment);` — a missing entry defaults to `0.0`. -/
def updateMax (r : Rates) (k : PathWithIndex) (v : ℚ) : Rates :=
  match lookupRate r k with
  | some old => setRate r k (max old v)
  | none => r ++ [(k, max 0 v)]

/-- Perform a sequence of `updateMax` updates in order. -/
def applyUpdates (us : List (PathWithIndex × ℚ)) (r : Rates) : Rates :=
  us.foldl (fun acc u => updateMax acc u.1 u.2) r

/-- `value_for_field`: field lookup for objects, `None` for everything else. -/
def childOf (v : Json) (key : String) : Option Json :=
  match v with
  | .obj fields => getField fields key
  | _ => none

/-- The `length` computed in `visit_field`: string byte length, array length,
or `1` for anything else (including a missing field). -/
def lengthOf : Option Json → ℕ
  | some (.str s) => s.utf8ByteSize
  | some (.arr elems) => elems.length
  | _ => 1

/-- Analyzer state (`ScaleLimits` in `scale_limits_analyzer.rs`). -/
structure ScaleLimits where
  value_stack : List (List Json)
  path_stack : List String
  rates : Rates

/-- `ScaleLimits::new`: the value stack starts with one level holding the
whole input; the path stack and the rates map start empty. -/
def ScaleLimits.new (extra_info : Json) : ScaleLimits :=
  { value_stack := [[extra_info]], path_stack := [], rates := [] }

/-- The `nested_values` list built by one `visit_field` call: for each parent
value in order, append the elements of an array child, the child itself if
present, or nothing. -/
def nestedValues (key : String) (values : List Json) : List Json :=
  values.foldl (fun acc v =>
    match childOf v key with
    | some (.arr elems) => acc ++ elems
    | some w => acc ++ [w]
    | none => acc) []

/-- The `(path, index) ↦ increment` updates performed by one `visit_field`
call: when the field carries a rate, each parent at position `index`
contributes `length × rate` under the freshly pushed path. -/
def visitUpdates (key : String) (rate : Option ℚ) (values : List Json)
    (path : Path) : List (PathWithIndex × ℚ) :=
  match rate with
  | some r => values.enum.map (fun p => (⟨key :: path, p.1⟩, (lengthOf (childOf p.2 key) : ℚ) * r))
  | none => []

/-- `ScaleLimits::visit_field`: push the response key, compute the per-parent
increments into `rates`, and push the nested values as a new level. The Rust
loop updates `rates` and builds `nested_values` in one pass over the parents;
the two effects touch disjoint state and are modelled as separate folds. -/
def visit_field (key : String) (rate : Option ℚ) (s : ScaleLimits) : ScaleLimits :=
  let values := s.value_stack.headD []
  { value_stack := nestedValues key values :: s.value_stack,
    path_stack := key :: s.path_stack,
    rates := applyUpdates (visitUpdates key rate values s.path_stack) s.rates }

/-- `ScaleLimits::leave_field`: pop both stacks. -/
def leave_field (s : ScaleLimits) : ScaleLimits :=
  { value_stack := s.value_stack.tail, path_stack := s.path_stack.tail, rates := s.rates }

def lookupPath : List (Path × ℚ) → Path → Option ℚ
  | [], _ => none
  | e :: rest, p => if e.1 = p then some e.2 else lookupPath rest p

def setPath : List (Path × ℚ) → Path → ℚ → List (Path × ℚ)
  | [], _, _ => []
  | e :: rest, p, v => if e.1 = p then (p, v) :: setPath rest p v else e :: setPath rest p v

/-- `*normalized_rates.entry(path).or_default() += rate;` — a missing entry
defaults to `0.0` before the addition. -/
def addContribution (acc : List (Path × ℚ)) (p : Path) (v : ℚ) : List (Path × ℚ) :=
  match lookupPath acc p with
  | some old => setPath acc p (old + v)
  | none => acc ++ [(p, 0 + v)]

/-- Group the rates by path (dropping the index) and sum within each group. -/
def normalizedRates (r : Rates) : List (Path × ℚ) :=
  r.foldl (fun acc e => addContribution acc e.1.path e.2) []

def MIN_SCALE_FACTOR : ℚ := 1

def MAX_SCALE_FACTOR : ℚ := 10

/-- `f64::clamp` on non-NaN values. -/
def clampQ (x lo hi : ℚ) : ℚ := if x < lo then lo else if hi < x then hi else x

/-- `ScaleLimits::into_output`: maximum of the per-path sums, starting from
`MIN_SCALE_FACTOR`, clamped to `[MIN_SCALE_FACTOR, MAX_SCALE_FACTOR]`. -/
def into_output (s : ScaleLimits) : ℚ :=
  clampQ ((normalizedRates s.rates).foldl (fun m e => max m e.2) MIN_SCALE_FACTOR)
    MIN_SCALE_FACTOR MAX_SCALE_FACTOR

/-- One traversal event of the schema-directed query walk driven by the
bluejay orchestrator: entering a field (with its response key and the rate
from its `scaleLimits` directive, if any) or leaving the current field. -/
inductive Event where
  | visit (key : String) (rate : Option ℚ)
  | leave
  deriving DecidableEq

def stepEvent (s : ScaleLimits) (e : Event) : ScaleLimits :=
  match e with
  | .visit k r => visit_field k r s
  | .leave => leave_field s

def runEvents (evs : List Event) (s : ScaleLimits) : ScaleLimits :=
  evs.foldl stepEvent s

/-- Well-nested visit/leave sequences: each selection-set entry contributes a
`visit`, the traversal of its sub-selections, and a matching `leave`. -/
inductive Balanced : List Event → Prop where
  | nil : Balanced []
  | node {k : String} {r : Option ℚ} {inner rest : List Event} :
      Balanced inner → Balanced rest →
      Balanced (.visit k r :: inner ++ .leave :: rest)

/-- The analyzer result for a traversal of `evs` over the given input. -/
def analyze (evs : List Event) (input : Json) : ℚ :=
  into_output (runEvents evs (ScaleLimits.new input))

def eventRate : Event → Option ℚ
  | .visit _ r => r
  | .leave => none

lemma clampQ_le (x lo hi : ℚ) (h : lo ≤ hi) : lo ≤ clampQ x lo hi ∧ clampQ x lo hi ≤ hi := by
  unfold clampQ
  split_ifs with h1 h2
  · exact ⟨le_refl _, h⟩
  · exact ⟨h, le_refl _⟩
  · exact ⟨le_of_not_lt h1, le_of_not_lt h2⟩

lemma runEvents_rates_nil (evs : List Event) (h : ∀ e ∈ evs, eventRate e = none) :
    ∀ s : ScaleLimits, s.rates = [] → (runEvents evs s).rates = [] := by
  induction evs with
  | nil => intro s hs; simpa [runEvents] using hs
  | cons e evs ih =>
    intro s hs
    have he : eventRate e = none := h e (List.mem_cons_self _ _)
    have hrest : ∀ e ∈ evs, eventRate e = none := fun x hx => h x (List.mem_cons_of_mem _ hx)
    have hstep : (stepEvent s e).rates = [] := by
      cases e with
      | visit k r =>
        cases r with
        | none => simpa [stepEvent, visit_field, visitUpdates, applyUpdates] using hs
        | some q => simp [eventRate] at he
      | leave => simpa [stepEvent, leave_field] using hs
    have : runEvents (e :: evs) s = runEvents evs (stepEvent s e) := by
      simp [runEvents, List.foldl_cons]
    rw [this]
    exact ih hrest _ hstep

/-- C1: the analyzer's output is always within `[1, 10]`, and a traversal in
which no field carries a `scaleLimits` rate yields exactly `1`. -/
theorem scale_factor_clamped (evs : List Event) (j : Json) :
    (1 ≤ analyze evs j ∧ analyze evs j ≤ 10) ∧
      ((∀ e ∈ evs, eventRate e = none) → analyze evs j = 1) := by
  constructor
  · have h := clampQ_le ((normalizedRates (runEvents evs (ScaleLimits.new j)).rates).foldl
        (fun m e => max m e.2) MIN_SCALE_FACTOR) MIN_SCALE_FACTOR MAX_SCALE_FACTOR (by norm_num [MIN_SCALE_FACTOR, MAX_SCALE_FACTOR])
    simpa [analyze, into_output, MIN_SCALE_FACTOR, MAX_SCALE_FACTOR] using h
  · intro h
    have hr : (runEvents evs (ScaleLimits.new j)).rates = [] :=
      runEvents_rates_nil evs h _ rfl
    simp [analyze, into_output, hr, normalizedRates, clampQ, MIN_SCALE_FACTOR, MAX_SCALE_FACTOR]

/-- Witness for C1 at a concrete rate-free traversal. -/
theorem scale_factor_clamped_witness :
    (1 ≤ analyze [Event.visit "f" none, Event.leave] Json.null ∧
        analyze [Event.visit "f" none, Event.leave] Json.null ≤ 10) ∧
      analyze [Event.visit "f" none, Event.leave] Json.null = 1 :=
  ⟨(scale_factor_clamped [Event.visit "f" none, Event.leave] Json.null).1,
    (scale_factor_clamped [Event.visit "f" none, Event.leave] Json.null).2 (by decide)⟩

/-! Decomposition of a traversal: the evolution of the two stacks depends only
on the stacks, and the `rates` map receives a stack-determined list of
`updateMax` updates. -/

def vstackStep (e : Event) (vs : List (List Json)) : List (List Json) :=
  match e with
  | .visit k _ => nestedValues k (vs.headD []) :: vs
  | .leave => vs.tail

def pstackStep (e : Event) (ps : List String) : List String :=
  match e with
  | .visit k _ => k :: ps
  | .leave => ps.tail

def vstackRun (evs : List Event) (vs : List (List Json)) : List (List Json) :=
  evs.foldl (fun a e => vstackStep e a) vs

def pstackRun (evs : List Event) (ps : List String) : List String :=
  evs.foldl (fun a e => pstackStep e a) ps

def eventUpdates (e : Event) (vs : List (List Json)) (ps : List String) :
    List (PathWithIndex × ℚ) :=
  match e with
  | .visit k r => visitUpdates k r (vs.headD []) ps
  | .leave => []

def updatesOf : List Event → List (List Json) → List String → List (PathWithIndex × ℚ)
  | [], _, _ => []
  | e :: evs, vs, ps => eventUpdates e vs ps ++ updatesOf evs (vstackStep e vs) (pstackStep e ps)

lemma applyUpdates_append (a b : List (PathWithIndex × ℚ)) (r : Rates) :
    applyUpdates (a ++ b) r = applyUpdates b (applyUpdates a r) := by
  simp [applyUpdates, List.foldl_append]

lemma stepEvent_decomp (s : ScaleLimits) (e : Event) :
    stepEvent s e =
      ⟨vstackStep e s.value_stack, pstackStep e s.path_stack,
        applyUpdates (eventUpdates e s.value_stack s.path_stack) s.rates⟩ := by
  cases e <;> rfl

lemma runEvents_cons (e : Event) (evs : List Event) (s : ScaleLimits) :
    runEvents (e :: evs) s = runEvents evs (stepEvent s e) := by
  simp [runEvents]

lemma runEvents_append (a b : List Event) (s : ScaleLimits) :
    runEvents (a ++ b) s = runEvents b (runEvents a s) := by
  simp [runEvents, List.foldl_append]

lemma vstackRun_cons (e : Event) (evs : List Event) (vs : List (List Json)) :
    vstackRun (e :: evs) vs = vstackRun evs (vstackStep e vs) := by
  simp [vstackRun]

lemma pstackRun_cons (e : Event) (evs : List Event) (ps : List String) :
    pstackRun (e :: evs) ps = pstackRun evs (pstackStep e ps) := by
  simp [pstackRun]

lemma vstackRun_append (a b : List Event) (vs : List (List Json)) :
    vstackRun (a ++ b) vs = vstackRun b (vstackRun a vs) := by
  simp [vstackRun, List.foldl_append]

lemma pstackRun_append (a b : List Event) (ps : List String) :
    pstackRun (a ++ b) ps = pstackRun b (pstackRun a ps) := by
  simp [pstackRun, List.foldl_append]

lemma runEvents_decomp (evs : List Event) (s : ScaleLimits) :
    runEvents evs s =
      ⟨vstackRun evs s.value_stack, pstackRun evs s.path_stack,
        applyUpdates (updatesOf evs s.value_stack s.path_stack) s.rates⟩ := by
  induction evs generalizing s with
  | nil => simp [runEvents, vstackRun, pstackRun, updatesOf, applyUpdates]
  | cons e evs ih =>
    rw [runEvents_cons, ih, stepEvent_decomp, vstackRun_cons, pstackRun_cons]
    simp [updatesOf, applyUpdates_append]

/-- A balanced traversal restores the value stack exactly. -/
lemma balanced_vstackRun {evs : List Event} (h : Balanced evs) :
    ∀ vs, vstackRun evs vs = vs := by
  induction h with
  | nil => intro vs; rfl
  | node hi hr ihi ihr =>
    intro vs
    rw [vstackRun_append, vstackRun_cons, vstackRun_cons, ihi]
    simp only [vstackStep, List.tail_cons]
    exact ihr vs

/-- A balanced traversal restores the path stack exactly. -/
lemma balanced_pstackRun {evs : List Event} (h : Balanced evs) :
    ∀ ps, pstackRun evs ps = ps := by
  induction h with
  | nil => intro ps; rfl
  | node hi hr ihi ihr =>
    intro ps
    rw [pstackRun_append, pstackRun_cons, pstackRun_cons, ihi]
    simp only [pstackStep, List.tail_cons]
    exact ihr ps

/-! Idempotence of a batch of `updateMax` updates on a duplicate-free map. -/

def NodupKeys (r : Rates) : Prop := (r.map Prod.fst).Nodup

lemma keys_setRate (r : Rates) (k : PathWithIndex) (v : ℚ) :
    (setRate r k v).map Prod.fst = r.map Prod.fst := by
  induction r with
  | nil => rfl
  | cons e rest ih =>
    by_cases hk : e.1 = k
    · simp [setRate, hk, ih]
    · simp [setRate, hk, ih]

lemma lookupRate_none_iff (r : Rates) (k : PathWithIndex) :
    lookupRate r k = none ↔ k ∉ r.map Prod.fst := by
  induction r with
  | nil => simp [lookupRate]
  | cons e rest ih =>
    by_cases hk : e.1 = k
    · simp [lookupRate, hk]
    · have hne : ¬ k = e.1 := fun h => hk h.symm
      simp only [lookupRate, if_neg hk, List.map_cons, List.mem_cons, not_or, ih]
      exact ⟨fun h => ⟨hne, h⟩, fun h => h.2⟩

lemma setRate_of_not_mem (r : Rates) (k : PathWithIndex) (v : ℚ)
    (h : k ∉ r.map Prod.fst) : setRate r k v = r := by
  induction r with
  | nil => rfl
  | cons e rest ih =>
    simp only [List.map_cons, List.mem_cons, not_or] at h
    have : ¬ e.1 = k := fun he => h.1 he.symm
    simp [setRate, this, ih h.2]

lemma setRate_self (r : Rates) (k : PathWithIndex) (v : ℚ)
    (hn : NodupKeys r) (h : lookupRate r k = some v) : setRate r k v = r := by
  induction r with
  | nil => rfl
  | cons e rest ih =>
    simp only [NodupKeys, List.map_cons, List.nodup_cons] at hn
    by_cases hk : e.1 = k
    · have hv : e.2 = v := by
        have := h
        simp only [lookupRate, if_pos hk] at this
        exact Option.some.inj this
      have hrest : setRate rest k v = rest :=
        setRate_of_not_mem rest k v (hk ▸ hn.1)
      calc setRate (e :: rest) k v = (k, v) :: setRate rest k v := by
            simp [setRate, hk]
        _ = (k, v) :: rest := by rw [hrest]
        _ = e :: rest := by rw [← hk, ← hv]
    · have h' : lookupRate rest k = some v := by
        have := h
        simp only [lookupRate, if_neg hk] at this
        exact this
      simp [setRate, hk, ih hn.2 h']

lemma lookupRate_setRate_self (r : Rates) (k : PathWithIndex) (v : ℚ)
    (h : ∃ old, lookupRate r k = some old) :
    lookupRate (setRate r k v) k = some v := by
  induction r with
  | nil => simp [lookupRate] at h
  | cons e rest ih =>
    by_cases hk : e.1 = k
    · simp [setRate, hk, lookupRate]
    · have h' : ∃ old, lookupRate rest k = some old := by
        obtain ⟨old, hold⟩ := h
        simp only [lookupRate, if_neg hk] at hold
        exact ⟨old, hold⟩
      have hs : setRate (e :: rest) k v = e :: setRate rest k v := by
        simp [setRate, hk]
      rw [hs]
      simp only [lookupRate, if_neg hk]
      exact ih h'

lemma lookupRate_setRate_ne (r : Rates) (k k' : PathWithIndex) (v : ℚ)
    (h : k' ≠ k) : lookupRate (setRate r k v) k' = lookupRate r k' := by
  induction r with
  | nil => rfl
  | cons e rest ih =>
    by_cases hk : e.1 = k
    · have hs : setRate (e :: rest) k v = (k, v) :: setRate rest k v := by
        simp [setRate, hk]
      have hne : ¬ ((k, v).1 = k') := fun hh => h (hh.symm)
      have hne2 : ¬ (e.1 = k') := by rw [hk]; exact fun hh => h hh.symm
      rw [hs]
      simp only [lookupRate, if_neg hne, if_neg hne2]
      exact ih
    · have hs : setRate (e :: rest) k v = e :: setRate rest k v := by
        simp [setRate, hk]
      rw [hs]
      by_cases hk' : e.1 = k'
      · simp only [lookupRate, if_pos hk']
      · simp only [lookupRate, if_neg hk']
        exact ih

lemma lookupRate_append (a b : Rates) (k : PathWithIndex) :
    lookupRate (a ++ b) k =
      match lookupRate a k with
      | some x => some x
      | none => lookupRate b k := by
  induction a with
  | nil => simp [lookupRate]
  | cons e rest ih =>
    by_cases hk : e.1 = k
    · simp [lookupRate, hk]
    · simp [lookupRate, hk, ih]

lemma lookup_updateMax_self (r : Rates) (k : PathWithIndex) (v : ℚ) :
    lookupRate (updateMax r k v) k = some (max ((lookupRate r k).getD 0) v) := by
  unfold updateMax
  cases h : lookupRate r k with
  | some old =>
    simp [lookupRate_setRate_self r k _ ⟨old, h⟩, h]
  | none =>
    rw [lookupRate_append]
    simp [h, lookupRate]

lemma lookup_updateMax_ne (r : Rates) (k k' : PathWithIndex) (v : ℚ) (h : k' ≠ k) :
    lookupRate (updateMax r k v) k' = lookupRate r k' := by
  unfold updateMax
  cases hl : lookupRate r k with
  | some old => exact lookupRate_setRate_ne r k k' _ h
  | none =>
    rw [lookupRate_append]
    cases hl' : lookupRate r k' with
    | some x => simp
    | none =>
      have : ¬ ((k, max 0 v).1 = k') := fun hh => h hh.symm
      simp only [lookupRate, if_neg this]

lemma nodup_updateMax (r : Rates) (k : PathWithIndex) (v : ℚ) (h : NodupKeys r) :
    NodupKeys (updateMax r k v) := by
  unfold updateMax
  cases hl : lookupRate r k with
  | some old =>
    have h' : (r.map Prod.fst).Nodup := h
    have : ((setRate r k (max old v)).map Prod.fst).Nodup := by
      rw [keys_setRate]; exact h'
    exact this
  | none =>
    have hk : k ∉ r.map Prod.fst := (lookupRate_none_iff r k).mp hl
    have h' : (r.map Prod.fst).Nodup := h
    have hkeys : (r ++ [(k, max 0 v)]).map Prod.fst = r.map Prod.fst ++ [k] := by simp
    show ((r ++ [(k, max 0 v)]).map Prod.fst).Nodup
    rw [hkeys]
    exact List.Nodup.append h' (List.nodup_singleton k) (by simpa using hk)

lemma updateMax_of_dominated (r : Rates) (k : PathWithIndex) (v w : ℚ)
    (hn : NodupKeys r) (hl : lookupRate r k = some w) (hv : v ≤ w) :
    updateMax r k v = r := by
  unfold updateMax
  rw [hl]
  show setRate r k (max w v) = r
  rw [max_eq_left hv]
  exact setRate_self r k w hn hl

lemma lookup_mono_updateMax (r : Rates) (k k' : PathWithIndex) (v w : ℚ)
    (hl : lookupRate r k = some w) :
    ∃ w', w ≤ w' ∧ lookupRate (updateMax r k' v) k = some w' := by
  by_cases hk : k = k'
  · subst hk
    refine ⟨max ((lookupRate r k).getD 0) v, ?_, lookup_updateMax_self r k v⟩
    rw [hl]
    exact le_max_of_le_left (le_refl w)
  · exact ⟨w, le_refl w, by rw [lookup_updateMax_ne r k' k v hk, hl]⟩

lemma lookup_mono_applyUpdates (us : List (PathWithIndex × ℚ)) (r : Rates)
    (k : PathWithIndex) (w : ℚ) (hl : lookupRate r k = some w) :
    ∃ w', w ≤ w' ∧ lookupRate (applyUpdates us r) k = some w' := by
  induction us generalizing r w with
  | nil => exact ⟨w, le_refl w, hl⟩
  | cons u us ih =>
    obtain ⟨w1, hw1, hl1⟩ := lookup_mono_updateMax r k u.1 u.2 w hl
    obtain ⟨w2, hw2, hl2⟩ := ih (updateMax r u.1 u.2) w1 hl1
    exact ⟨w2, le_trans hw1 hw2, by simpa [applyUpdates] using hl2⟩

lemma nodup_applyUpdates (us : List (PathWithIndex × ℚ)) (r : Rates)
    (h : NodupKeys r) : NodupKeys (applyUpdates us r) := by
  induction us generalizing r with
  | nil => exact h
  | cons u us ih =>
    have := ih (updateMax r u.1 u.2) (nodup_updateMax r u.1 u.2 h)
    simpa [applyUpdates] using this

lemma applyUpdates_dominated (us : List (PathWithIndex × ℚ)) (r : Rates)
    (hn : NodupKeys r)
    (h : ∀ u ∈ us, ∃ w, lookupRate r u.1 = some w ∧ u.2 ≤ w) :
    applyUpdates us r = r := by
  induction us with
  | nil => rfl
  | cons u us ih =>
    obtain ⟨w, hl, hv⟩ := h u (List.mem_cons_self _ _)
    have h1 : updateMax r u.1 u.2 = r := updateMax_of_dominated r u.1 u.2 w hn hl hv
    have : applyUpdates us r = r := ih (fun x hx => h x (List.mem_cons_of_mem _ hx))
    simpa [applyUpdates, h1] using this

lemma applyUpdates_dominates (us : List (PathWithIndex × ℚ)) (r : Rates) :
    ∀ u ∈ us, ∃ w, lookupRate (applyUpdates us r) u.1 = some w ∧ u.2 ≤ w := by
  induction us generalizing r with
  | nil => intro u hu; simp at hu
  | cons u0 us ih =>
    intro u hu
    rcases List.mem_cons.mp hu with h | h
    · subst h
      have h1 : lookupRate (updateMax r u.1 u.2) u.1 =
          some (max ((lookupRate r u.1).getD 0) u.2) := lookup_updateMax_self r u.1 u.2
      obtain ⟨w', hw', hl'⟩ := lookup_mono_applyUpdates us (updateMax r u.1 u.2) u.1 _ h1
      exact ⟨w', by simpa [applyUpdates] using hl', le_trans (le_max_right _ _) hw'⟩
    · obtain ⟨w, hl, hv⟩ := ih (updateMax r u0.1 u0.2) u h
      exact ⟨w, by simpa [applyUpdates] using hl, hv⟩

lemma applyUpdates_idem (us : List (PathWithIndex × ℚ)) (r : Rates)
    (h : NodupKeys r) :
    applyUpdates us (applyUpdates us r) = applyUpdates us r :=
  applyUpdates_dominated us _ (nodup_applyUpdates us r h) (applyUpdates_dominates us r)

/-- C3: repeating a field's selection (`{ f f }`) leaves the analyzer result
unchanged compared to selecting it once (`{ f }`): both passes store the same
per-(path, index) contributions and `max` is idempotent. -/
theorem duplicate_field_idempotent (k : String) (r : Option ℚ) (inner : List Event)
    (j : Json) (h : Balanced inner) :
    analyze ((Event.visit k r :: inner ++ [Event.leave]) ++
        (Event.visit k r :: inner ++ [Event.leave])) j =
      analyze (Event.visit k r :: inner ++ [Event.leave]) j := by
  have hF : Balanced (Event.visit k r :: inner ++ [Event.leave]) := by
    have := Balanced.node (k := k) (r := r) h Balanced.nil
    simpa using this
  set F := Event.visit k r :: inner ++ [Event.leave] with hFdef
  set s0 := ScaleLimits.new j with hs0
  have hv0 : vstackRun F s0.value_stack = s0.value_stack := balanced_vstackRun hF _
  have hp0 : pstackRun F s0.path_stack = s0.path_stack := balanced_pstackRun hF _
  have hrun1 : runEvents F s0 =
      ⟨s0.value_stack, s0.path_stack,
        applyUpdates (updatesOf F s0.value_stack s0.path_stack) s0.rates⟩ := by
    rw [runEvents_decomp, hv0, hp0]
  have hrates0 : s0.rates = [] := rfl
  have hnodup : NodupKeys s0.rates := by
    rw [hrates0]; exact List.nodup_nil
  have hrun2 : runEvents (F ++ F) s0 = runEvents F s0 := by
    rw [runEvents_append, hrun1, runEvents_decomp]
    simp only [hv0, hp0]
    rw [applyUpdates_idem _ _ hnodup, ← hrun1]
  unfold analyze
  rw [hrun2]

/-- Witness for C3: `{ f f }` versus `{ f }` over a concrete input. -/
theorem duplicate_field_idempotent_witness :
    analyze ((Event.visit "f" (some (5 / 1000)) :: [] ++ [Event.leave]) ++
        (Event.visit "f" (some (5 / 1000)) :: [] ++ [Event.leave]))
        (Json.obj [("f", Json.arr [Json.str "value", Json.str "value"])]) =
      analyze (Event.visit "f" (some (5 / 1000)) :: [] ++ [Event.leave])
        (Json.obj [("f", Json.arr [Json.str "value", Json.str "value"])]) :=
  duplicate_field_idempotent "f" (some (5 / 1000)) []
    (Json.obj [("f", Json.arr [Json.str "value", Json.str "value"])]) Balanced.nil

/-! Computation of the analyzer over an input with `N` identical parents. -/

lemma enumFrom_replicate {α : Type} (a : α) :
    ∀ (n k : ℕ), List.enumFrom k (List.replicate n a) =
      (List.range n).map (fun i => (k + i, a)) := by
  intro n
  induction n with
  | zero => intro k; rfl
  | succ n ih =>
    intro k
    rw [List.replicate_succ, List.range_succ_eq_map]
    simp only [List.enumFrom, List.map_cons, List.map_map]
    rw [ih (k + 1)]
    refine congr_arg₂ List.cons (by simp) ?_
    apply List.map_congr_left
    intro i _
    simp only [Function.comp_apply, Prod.mk.injEq]
    exact ⟨by omega, by trivial⟩

lemma enum_replicate {α : Type} (n : ℕ) (a : α) :
    (List.replicate n a).enum = (List.range n).map (fun i => (i, a)) := by
  rw [List.enum, enumFrom_replicate]
  apply List.map_congr_left
  intro i _
  simp

lemma visitUpdates_replicate (key : String) (r : ℚ) (N : ℕ) (v : Json) (path : Path) :
    visitUpdates key (some r) (List.replicate N v) path =
      (List.range N).map
        (fun i => (⟨key :: path, i⟩, (lengthOf (childOf v key) : ℚ) * r)) := by
  unfold visitUpdates
  rw [enum_replicate]
  simp [List.map_map, Function.comp]

lemma applyUpdates_fresh (us : List (PathWithIndex × ℚ)) :
    ∀ r : Rates, (us.map Prod.fst).Nodup →
      (∀ k ∈ us.map Prod.fst, k ∉ r.map Prod.fst) →
      applyUpdates us r = r ++ us.map (fun u => (u.1, max 0 u.2)) := by
  induction us with
  | nil => intro r _ _; simp [applyUpdates]
  | cons u us ih =>
    intro r hnd hdisj
    have hu : u.1 ∉ r.map Prod.fst := hdisj u.1 (by simp)
    have hl : lookupRate r u.1 = none := (lookupRate_none_iff r u.1).mpr hu
    have h1 : updateMax r u.1 u.2 = r ++ [(u.1, max 0 u.2)] := by
      unfold updateMax; rw [hl]
    have hnd' : (us.map Prod.fst).Nodup := (List.nodup_cons.mp (by simpa using hnd)).2
    have hhd : u.1 ∉ us.map Prod.fst := (List.nodup_cons.mp (by simpa using hnd)).1
    have happ : applyUpdates (u :: us) r = applyUpdates us (updateMax r u.1 u.2) := by
      simp [applyUpdates]
    rw [happ, h1, ih (r ++ [(u.1, max 0 u.2)]) hnd']
    · simp
    · intro k hk
      have hk1 : k ∉ r.map Prod.fst := hdisj k (by simp [hk])
      have hk2 : k ≠ u.1 := fun he => hhd (he ▸ hk)
      simp only [List.map_append, List.mem_append, List.map_cons, List.map_nil,
        List.mem_singleton, not_or]
      exact ⟨hk1, hk2⟩

lemma foldl_addContribution_same (es : List (PathWithIndex × ℚ)) (P : Path) :
    ∀ s : ℚ, (∀ e ∈ es, e.1.path = P) →
      es.foldl (fun acc e => addContribution acc e.1.path e.2) [(P, s)] =
        [(P, s + (es.map Prod.snd).sum)] := by
  induction es with
  | nil => intro s _; simp
  | cons e es ih =>
    intro s hP
    have hPe : e.1.path = P := hP e (by simp)
    have hstep : addContribution [(P, s)] e.1.path e.2 = [(P, s + e.2)] := by
      rw [hPe]; simp [addContribution, lookupPath, setPath]
    simp only [List.foldl_cons, hstep]
    rw [ih (s + e.2) (fun x hx => hP x (List.mem_cons_of_mem _ hx))]
    simp [add_assoc]

lemma normalizedRates_same_path (es : List (PathWithIndex × ℚ)) (P : Path)
    (hne : es ≠ []) (hP : ∀ e ∈ es, e.1.path = P) :
    normalizedRates es = [(P, (es.map Prod.snd).sum)] := by
  cases es with
  | nil => exact absurd rfl hne
  | cons e es =>
    have hPe : e.1.path = P := hP e (by simp)
    have hstep : addContribution [] e.1.path e.2 = [(P, 0 + e.2)] := by
      rw [hPe]; simp [addContribution, lookupPath]
    unfold normalizedRates
    simp only [List.foldl_cons, hstep]
    rw [foldl_addContribution_same es P (0 + e.2)
      (fun x hx => hP x (List.mem_cons_of_mem _ hx))]
    simp [add_assoc]

/-- C2 as amended: for the query `{ parent { f } }` over an input whose
`parent` field is an array of `N` objects, each carrying under `f` an array of
length `M`, with `f`'s definition bearing `scaleLimits(rate: r)` and `r`
nonnegative, the accumulated pre-clamp contribution for `f`'s path is
`N × M × r`: each parent index contributes `length × rate = M × r`, and
contributions sharing the path are summed across parent indices when the
output is computed. (For a negative rate the `or_default`/`max` combination
lifts each per-parent entry to `0.0`, so the equality fails — see the
counterexample below.) -/
theorem cumulative_per_path_scaling (N M : ℕ) (r : ℚ) (e : Json) (hr : 0 ≤ r) :
    (lookupPath
        (normalizedRates
          (runEvents
              [Event.visit "parent" none, Event.visit "f" (some r),
                Event.leave, Event.leave]
              (ScaleLimits.new
                (Json.obj [("parent",
                  Json.arr (List.replicate N
                    (Json.obj [("f", Json.arr (List.replicate M e))])))]))).rates)
        ["f", "parent"]).getD 0 = (N : ℚ) * M * r := by
  have hrun :
      (runEvents
          [Event.visit "parent" none, Event.visit "f" (some r),
            Event.leave, Event.leave]
          (ScaleLimits.new
            (Json.obj [("parent",
              Json.arr (List.replicate N
                (Json.obj [("f", Json.arr (List.replicate M e))])))]))).rates =
        applyUpdates
          (visitUpdates "f" (some r)
            (List.replicate N (Json.obj [("f", Json.arr (List.replicate M e))]))
            ["parent"]) [] := by
    simp [runEvents, stepEvent, visit_field, leave_field, ScaleLimits.new,
      nestedValues, childOf, getField, visitUpdates, applyUpdates]
  rw [hrun, visitUpdates_replicate]
  have hlen : (lengthOf (childOf (Json.obj [("f", Json.arr (List.replicate M e))]) "f") : ℚ) =
      (M : ℚ) := by
    simp [childOf, getField, lengthOf]
  rw [hlen]
  have hfresh :
      applyUpdates ((List.range N).map (fun i => (⟨["f", "parent"], i⟩, (M : ℚ) * r))) [] =
        (List.range N).map (fun i => (⟨["f", "parent"], i⟩, max 0 ((M : ℚ) * r))) := by
    rw [applyUpdates_fresh]
    · simp [List.map_map, Function.comp]
    · simp only [List.map_map]
      refine List.Nodup.map ?_ (List.nodup_range N)
      intro a b hab
      simpa [Function.comp, PathWithIndex.mk.injEq] using hab
    · intro k _
      simp
  rw [hfresh]
  have hmax : max 0 ((M : ℚ) * r) = (M : ℚ) * r :=
    max_eq_right (mul_nonneg (by positivity) hr)
  rw [hmax]
  cases N with
  | zero => simp [normalizedRates, lookupPath]
  | succ n =>
    have hP : ∀ x ∈ (List.range (n + 1)).map
        (fun i => ((⟨["f", "parent"], i⟩ : PathWithIndex), (M : ℚ) * r)),
        x.1.path = ["f", "parent"] := by
      intro x hx
      simp only [List.mem_map] at hx
      obtain ⟨i, _, hi⟩ := hx
      rw [← hi]
    have hlook : ∀ s : ℚ,
        (lookupPath [(["f", "parent"], s)] ["f", "parent"]).getD 0 = s := by
      intro s; simp [lookupPath]
    rw [normalizedRates_same_path _ ["f", "parent"] (by simp) hP, hlook]
    simp only [List.map_map]
    have hsum : ((List.range (n + 1)).map
        ((fun u : PathWithIndex × ℚ => u.2) ∘
          (fun i => ((⟨["f", "parent"], i⟩ : PathWithIndex), (M : ℚ) * r)))).sum =
        ((n + 1 : ℕ) : ℚ) * ((M : ℚ) * r) := by
      have : ((fun u : PathWithIndex × ℚ => u.2) ∘
          (fun i => ((⟨["f", "parent"], i⟩ : PathWithIndex), (M : ℚ) * r))) =
          fun _ : ℕ => (M : ℚ) * r := rfl
      rw [this, List.map_const', List.sum_replicate, List.length_range, nsmul_eq_mul]
    rw [hsum]
    push_cast
    ring

/-- Witness for C2 at `N = 2`, `M = 3`, `r = 1/2`. -/
theorem cumulative_per_path_scaling_witness :
    (0 : ℚ) ≤ 1 / 2 ∧
      (lookupPath
          (normalizedRates
            (runEvents
                [Event.visit "parent" none, Event.visit "f" (some (1 / 2)),
                  Event.leave, Event.leave]
                (ScaleLimits.new
                  (Json.obj [("parent",
                    Json.arr (List.replicate 2
                      (Json.obj [("f", Json.arr (List.replicate 3 (Json.str "x")))])))]))).rates)
          ["f", "parent"]).getD 0 = ((2 : ℕ) : ℚ) * (3 : ℕ) * (1 / 2) :=
  ⟨by norm_num, cumulative_per_path_scaling 2 3 (1 / 2) (Json.str "x") (by norm_num)⟩

/-- C2 counterexample: a negative rate is reachable (a GraphQL float literal
with no sign check anywhere on the path to `rate_for_field_definition`), and
there the claim fails: at `N = 1`, `M = 1`, `r = -1/2` the stored per-parent
entry is `max 0.0 (1 × (-1/2)) = 0`, so the accumulated contribution is `0`,
not `N × M × r = -1/2`. -/
theorem cumulative_per_path_scaling_counterexample :
    (lookupPath
        (normalizedRates
          (runEvents
              [Event.visit "parent" none, Event.visit "f" (some (-(1 / 2))),
                Event.leave, Event.leave]
              (ScaleLimits.new
                (Json.obj [("parent",
                  Json.arr (List.replicate 1
                    (Json.obj [("f", Json.arr (List.replicate 1 (Json.str "x")))])))]))).rates)
        ["f", "parent"]).getD 0 = 0 ∧
      ((1 : ℕ) : ℚ) * ((1 : ℕ) : ℚ) * (-(1 / 2)) ≠ 0 := by
  constructor
  · have hrun :
        (runEvents
            [Event.visit "parent" none, Event.visit "f" (some (-(1 / 2))),
              Event.leave, Event.leave]
            (ScaleLimits.new
              (Json.obj [("parent",
                Json.arr (List.replicate 1
                  (Json.obj [("f", Json.arr (List.replicate 1 (Json.str "x")))])))]))).rates =
          applyUpdates
            (visitUpdates "f" (some (-(1 / 2)))
              (List.replicate 1 (Json.obj [("f", Json.arr (List.replicate 1 (Json.str "x")))]))
              ["parent"]) [] := by
      simp [runEvents, stepEvent, visit_field, leave_field, ScaleLimits.new,
        nestedValues, childOf, getField, visitUpdates, applyUpdates]
    rw [hrun, visitUpdates_replicate]
    have hlen : (lengthOf (childOf
        (Json.obj [("f", Json.arr (List.replicate 1 (Json.str "x")))]) "f") : ℚ) =
        ((1 : ℕ) : ℚ) := by
      simp [childOf, getField, lengthOf]
    rw [hlen]
    have hfresh :
        applyUpdates ((List.range 1).map
            (fun i => (⟨["f", "parent"], i⟩, ((1 : ℕ) : ℚ) * (-(1 / 2))))) [] =
          (List.range 1).map
            (fun i => (⟨["f", "parent"], i⟩, max 0 (((1 : ℕ) : ℚ) * (-(1 / 2))))) := by
      rw [applyUpdates_fresh]
      · simp [List.map_map, Function.comp]
      · simp only [List.map_map]
        refine List.Nodup.map ?_ (List.nodup_range 1)
        intro a b hab
        simpa [Function.comp, PathWithIndex.mk.injEq] using hab
      · intro k _
        simp
    rw [hfresh]
    have hmax : max 0 (((1 : ℕ) : ℚ) * (-(1 / 2))) = 0 := max_eq_left (by norm_num)
    rw [hmax]
    have hone : (List.range 1).map
        (fun i => ((⟨["f", "parent"], i⟩ : PathWithIndex), (0 : ℚ))) =
        [(⟨["f", "parent"], 0⟩, (0 : ℚ))] := rfl
    rw [hone]
    simp [normalizedRates, addContribution, lookupPath]
  · norm_num

/-! Synchronization of the two stacks along a well-nested traversal. -/

def isVisit : Event → Bool
  | .visit _ _ => true
  | .leave => false

def countVisit (evs : List Event) : ℕ := evs.countP isVisit

def countLeave (evs : List Event) : ℕ := evs.countP (fun e => !isVisit e)

lemma prefix_cons_cases {α : Type} {p : List α} {x : α} {l : List α}
    (h : p <+: x :: l) : p = [] ∨ ∃ q, p = x :: q ∧ q <+: l := by
  cases p with
  | nil => exact Or.inl rfl
  | cons y q =>
    obtain ⟨t, ht⟩ := h
    rw [List.cons_append] at ht
    injection ht with h1 h2
    exact Or.inr ⟨q, by rw [h1], ⟨t, h2⟩⟩

lemma prefix_append_cases {α : Type} {p a b : List α} (h : p <+: a ++ b) :
    p <+: a ∨ ∃ q, p = a ++ q ∧ q <+: b := by
  induction a generalizing p with
  | nil => exact Or.inr ⟨p, rfl, by simpa using h⟩
  | cons x a ih =>
    rcases prefix_cons_cases h with rfl | ⟨q, rfl, hq⟩
    · exact Or.inl List.nil_prefix
    · rcases ih hq with h1 | ⟨q', rfl, hq'⟩
      · obtain ⟨t, ht⟩ := h1
        exact Or.inl ⟨t, by rw [List.cons_append, ht]⟩
      · exact Or.inr ⟨q', rfl, hq'⟩

lemma balanced_count {evs : List Event} (h : Balanced evs) :
    countLeave evs = countVisit evs := by
  induction h with
  | nil => rfl
  | node hi hr ihi ihr =>
    simp [countLeave, countVisit, List.countP_cons, List.countP_append,
      isVisit] at *
    omega

lemma balanced_prefix_count {evs : List Event} (h : Balanced evs) :
    ∀ q, q <+: evs → countLeave q ≤ countVisit q := by
  induction h with
  | nil =>
    intro q hq
    rw [List.prefix_nil.mp hq]
    simp [countLeave, countVisit]
  | node hi hr ihi ihr =>
    intro q hq
    rcases prefix_cons_cases hq with rfl | ⟨q1, rfl, hq1⟩
    · simp [countLeave, countVisit]
    · rcases prefix_append_cases hq1 with h1 | ⟨q2, rfl, hq2⟩
      · have := ihi q1 h1
        simp [countLeave, countVisit, List.countP_cons, isVisit] at *
        omega
      · rcases prefix_cons_cases hq2 with rfl | ⟨q3, rfl, hq3⟩
        · have := ihi _ (List.prefix_refl _)
          simp [countLeave, countVisit, List.countP_cons, List.countP_append,
            isVisit] at *
          omega
        · have h2 := balanced_count hi
          have h3 := ihr q3 hq3
          simp [countLeave, countVisit, List.countP_cons, List.countP_append,
            isVisit] at *
          omega

lemma balanced_strict_count {evs : List Event} (h : Balanced evs) :
    ∀ q, (q ++ [Event.leave]) <+: evs → countLeave q + 1 ≤ countVisit q := by
  intro q hq
  have := balanced_prefix_count h _ hq
  simp [countLeave, countVisit, List.countP_append, List.countP_cons,
    List.countP_nil, isVisit] at *
  omega

lemma pstackRun_length (p : List Event) :
    ∀ ps : List String,
      (∀ q, q <+: p → countLeave q ≤ countVisit q + ps.length) →
      (pstackRun p ps).length + countLeave p = ps.length + countVisit p := by
  induction p with
  | nil => intro ps _; simp [pstackRun, countLeave, countVisit]
  | cons e p ih =>
    intro ps hps
    rw [pstackRun_cons]
    cases e with
    | visit k r =>
      have := ih (k :: ps) (by
        intro q hq
        obtain ⟨t, ht⟩ := hq
        have hq' : (Event.visit k r :: q) <+: (Event.visit k r :: p) :=
          ⟨t, by rw [List.cons_append, ht]⟩
        have := hps _ hq'
        simp [countLeave, countVisit, List.countP_cons, isVisit,
          List.length_cons] at *
        omega)
      simp [pstackStep, countLeave, countVisit, List.countP_cons, isVisit,
        List.length_cons] at *
      omega
    | leave =>
      have hlen : 1 ≤ ps.length := by
        have := hps [Event.leave] ⟨p, rfl⟩
        simp [countLeave, countVisit, isVisit] at this
        omega
      have := ih ps.tail (by
        intro q hq
        obtain ⟨t, ht⟩ := hq
        have hq' : (Event.leave :: q) <+: (Event.leave :: p) :=
          ⟨t, by rw [List.cons_append, ht]⟩
        have := hps _ hq'
        simp [countLeave, countVisit, List.countP_cons, isVisit,
          List.length_tail] at *
        omega)
      simp [pstackStep, countLeave, countVisit, List.countP_cons, isVisit,
        List.length_tail] at *
      omega

lemma vstackRun_length (p : List Event) :
    ∀ vs : List (List Json),
      (∀ q, q <+: p → countLeave q ≤ countVisit q + vs.length) →
      (vstackRun p vs).length + countLeave p = vs.length + countVisit p := by
  induction p with
  | nil => intro vs _; simp [vstackRun, countLeave, countVisit]
  | cons e p ih =>
    intro vs hvs
    rw [vstackRun_cons]
    cases e with
    | visit k r =>
      have := ih (nestedValues k (vs.headD []) :: vs) (by
        intro q hq
        obtain ⟨t, ht⟩ := hq
        have hq' : (Event.visit k r :: q) <+: (Event.visit k r :: p) :=
          ⟨t, by rw [List.cons_append, ht]⟩
        have := hvs _ hq'
        simp [countLeave, countVisit, List.countP_cons, isVisit,
          List.length_cons] at *
        omega)
      simp [vstackStep, countLeave, countVisit, List.countP_cons, isVisit,
        List.length_cons] at *
      omega
    | leave =>
      have hlen : 1 ≤ vs.length := by
        have := hvs [Event.leave] ⟨p, rfl⟩
        simp [countLeave, countVisit, isVisit] at this
        omega
      have := ih vs.tail (by
        intro q hq
        obtain ⟨t, ht⟩ := hq
        have hq' : (Event.leave :: q) <+: (Event.leave :: p) :=
          ⟨t, by rw [List.cons_append, ht]⟩
        have := hvs _ hq'
        simp [countLeave, countVisit, List.countP_cons, isVisit,
          List.length_tail] at *
        omega)
      simp [vstackStep, countLeave, countVisit, List.countP_cons, isVisit,
        List.length_tail] at *
      omega

/-- C10: along any well-nested traversal from the initial state, after any
prefix the value stack holds exactly one more level than the path stack (so
`value_stack.last()` and `value_stack.pop()` always succeed), and whenever the
next event is a `leave`, the path stack is non-empty (so `path_stack.pop()`
succeeds). -/
theorem stacks_synchronized (evs p : List Event) (j : Json) (h : Balanced evs)
    (hp : p <+: evs) :
    ((runEvents p (ScaleLimits.new j)).value_stack.length =
        (runEvents p (ScaleLimits.new j)).path_stack.length + 1) ∧
      ((p ++ [Event.leave]) <+: evs →
        (runEvents p (ScaleLimits.new j)).path_stack ≠ []) := by
  have hcount : ∀ q, q <+: p → countLeave q ≤ countVisit q :=
    fun q hq => balanced_prefix_count h q (hq.trans hp)
  have hps := pstackRun_length p []
    (by intro q hq; simpa using hcount q hq)
  have hvs := vstackRun_length p [[j]]
    (by
      intro q hq
      have := hcount q hq
      simp only [List.length_cons, List.length_nil]
      omega)
  have hv : (runEvents p (ScaleLimits.new j)).value_stack = vstackRun p [[j]] := by
    rw [runEvents_decomp]
    rfl
  have hpstack : (runEvents p (ScaleLimits.new j)).path_stack = pstackRun p [] := by
    rw [runEvents_decomp]
    rfl
  constructor
  · rw [hv, hpstack]
    simp only [List.length_cons, List.length_nil] at hvs
    simp only [List.length_nil] at hps
    omega
  · intro hleave
    have hstrict := balanced_strict_count h p hleave
    rw [hpstack]
    intro hnil
    rw [hnil] at hps
    simp only [List.length_nil] at hps
    omega

/-- Witness for C10 at a concrete balanced traversal and prefix. -/
theorem stacks_synchronized_witness :
    ((runEvents [Event.visit "f" none] (ScaleLimits.new Json.null)).value_stack.length =
        (runEvents [Event.visit "f" none] (ScaleLimits.new Json.null)).path_stack.length + 1) ∧
      (([Event.visit "f" none] ++ [Event.leave]) <+:
          [Event.visit "f" none, Event.leave] →
        (runEvents [Event.visit "f" none] (ScaleLimits.new Json.null)).path_stack ≠ []) :=
  stacks_synchronized [Event.visit "f" none, Event.leave] [Event.visit "f" none]
    Json.null (Balanced.node Balanced.nil Balanced.nil) (by decide)

/-! Provider classification (`is_mem_io_provider`, identical in
`src/validated_module.rs` and `src/io.rs`). Rust strings are modelled as
character lists; `usize` is the 64-bit unsigned integer of release targets. -/

def USIZE_MAX : ℕ := 2 ^ 64 - 1

/-- Value denoted by a digit string, most significant digit first. -/
def digitsVal (s : List Char) : ℕ := s.foldl (fun a c => 10 * a + (c.toNat - 48)) 0

/-- Drop a single leading `+` sign, as `usize::from_str` accepts. -/
def stripPlus (s : List Char) : List Char :=
  match s with
  | c :: rest => if c = '+' then rest else s
  | [] => s

/-- `str::parse::<usize>()`: an optional leading `+`, then one or more ASCII
digits whose value fits in `usize`; anything else is an error. -/
def parseUsize (s : List Char) : Option ℕ :=
  let digits := stripPlus s
  if digits ≠ [] ∧ (∀ c ∈ digits, c.isDigit) ∧ digitsVal digits ≤ USIZE_MAX then
    some (digitsVal digits)
  else none

/-- `str::strip_prefix`. -/
def stripPrefixOf (p s : List Char) : Option (List Char) :=
  if p.isPrefixOf s then some (s.drop p.length) else none

def isSomeAnd {α : Type} (p : α → Bool) : Option α → Bool
  | some v => p v
  | none => false

/-- `Provider::is_mem_io_provider` / `io::is_mem_io_provider`: the name is
`shopify_functions_javy_v` followed by a `usize` parsing to at least 3, or
`shopify_function_v` followed by a `usize` parsing to at least 2. -/
def is_mem_io_provider (name : List Char) : Bool :=
  if isSomeAnd (fun v => decide (3 ≤ v))
      ((stripPrefixOf "shopify_functions_javy_v".toList name).bind parseUsize) then
    true
  else if isSomeAnd (fun v => decide (2 ≤ v))
      ((stripPrefixOf "shopify_function_v".toList name).bind parseUsize) then
    true
  else
    false

/-- The spec's wording: the suffix is a (nonempty) decimal numeral denoting
`n`. -/
def DenotesDecimal (s : List Char) (n : ℕ) : Prop :=
  s ≠ [] ∧ (∀ c ∈ s, c.isDigit) ∧ digitsVal s = n

/-- Claim C4 as stated: the name is one of the two prefixes followed by a
decimal integer meeting the version bound. -/
def ClaimMemIO (name : List Char) : Prop :=
  (∃ n, 3 ≤ n ∧ ∃ s, DenotesDecimal s n ∧ name = "shopify_functions_javy_v".toList ++ s) ∨
    (∃ n, 2 ≤ n ∧ ∃ s, DenotesDecimal s n ∧ name = "shopify_function_v".toList ++ s)

/-- C4 counterexample: `shopify_function_v18446744073709551616` ends in the
decimal integer `2^64 ≥ 2`, so the claim classifies it as a memory-I/O
provider, but `usize` parsing overflows and the code classifies it as
streamed-stdio. -/
theorem mem_io_provider_counterexample :
    is_mem_io_provider "shopify_function_v18446744073709551616".toList = false ∧
      ClaimMemIO "shopify_function_v18446744073709551616".toList := by
  constructor
  · decide
  · refine Or.inr ⟨2 ^ 64, by norm_num, "18446744073709551616".toList, ⟨?_, ?_, ?_⟩, ?_⟩
    · decide
    · decide
    · decide
    · decide

/-- What `parse::<usize>` accepts: the value fits in `usize` and the string is
a decimal numeral, optionally preceded by `+`. -/
def ParsesAsUsize (s : List Char) (n : ℕ) : Prop :=
  n ≤ USIZE_MAX ∧ (DenotesDecimal s n ∨ ∃ t, s = '+' :: t ∧ DenotesDecimal t n)

/-- C4 as amended: the numeral may carry a leading `+` and its value must fit
in a 64-bit `usize`; overflowing numerals are classified streamed-stdio. -/
def AmendedMemIO (name : List Char) : Prop :=
  (∃ n s, 3 ≤ n ∧ ParsesAsUsize s n ∧ name = "shopify_functions_javy_v".toList ++ s) ∨
    (∃ n s, 2 ≤ n ∧ ParsesAsUsize s n ∧ name = "shopify_function_v".toList ++ s)

lemma stripPrefixOf_eq_some (p s r : List Char) :
    stripPrefixOf p s = some r ↔ s = p ++ r := by
  unfold stripPrefixOf
  by_cases h : p.isPrefixOf s
  · rw [if_pos h]
    have hp : p <+: s := List.isPrefixOf_iff_prefix.mp h
    have he : p ++ s.drop p.length = s := List.prefix_iff_eq_append.mp hp
    constructor
    · intro hr
      rw [← (Option.some.inj hr), he]
    · intro hr
      subst hr
      rw [List.drop_left]
  · rw [if_neg h]
    constructor
    · intro hr; cases hr
    · intro hr
      subst hr
      exact absurd (List.isPrefixOf_iff_prefix.mpr (List.prefix_append p r)) h

lemma parseUsize_eq_some (s : List Char) (n : ℕ) :
    parseUsize s = some n ↔ ParsesAsUsize s n := by
  unfold parseUsize ParsesAsUsize
  constructor
  · intro h
    by_cases hc : stripPlus s ≠ [] ∧ (∀ c ∈ stripPlus s, c.isDigit) ∧
        digitsVal (stripPlus s) ≤ USIZE_MAX
    · rw [if_pos hc] at h
      have hn : digitsVal (stripPlus s) = n := Option.some.inj h
      refine ⟨hn ▸ hc.2.2, ?_⟩
      cases s with
      | nil => exact absurd rfl hc.1
      | cons c rest =>
        by_cases hplus : c = '+'
        · subst hplus
          have hsp : stripPlus ('+' :: rest) = rest := by simp [stripPlus]
          rw [hsp] at hc hn
          exact Or.inr ⟨rest, rfl, hc.1, hc.2.1, hn⟩
        · have hsp : stripPlus (c :: rest) = c :: rest := by simp [stripPlus, hplus]
          rw [hsp] at hc hn
          exact Or.inl ⟨hc.1, hc.2.1, hn⟩
    · rw [if_neg hc] at h
      cases h
  · intro h
    obtain ⟨hmax, h⟩ := h
    rcases h with ⟨hne, hdig, hval⟩ | ⟨t, rfl, hne, hdig, hval⟩
    · have hsp : stripPlus s = s := by
        cases s with
        | nil => rfl
        | cons c rest =>
          have hc : c.isDigit := hdig c (List.mem_cons_self _ _)
          have : ¬ c = '+' := by
            intro hcc
            rw [hcc] at hc
            exact absurd hc (by decide)
          simp [stripPlus, this]
      rw [hsp]
      rw [if_pos ⟨hne, hdig, hval ▸ hmax⟩, hval]
    · have hsp : stripPlus ('+' :: t) = t := by simp [stripPlus]
      rw [hsp]
      rw [if_pos ⟨hne, hdig, hval ▸ hmax⟩, hval]

lemma isSomeAnd_eq_true {α : Type} (p : α → Bool) (o : Option α) :
    isSomeAnd p o = true ↔ ∃ v, o = some v ∧ p v = true := by
  cases o with
  | none => simp [isSomeAnd]
  | some v => simp [isSomeAnd]

lemma mem_io_branch (pre name : List Char) (bound : ℕ) :
    isSomeAnd (fun v => decide (bound ≤ v)) ((stripPrefixOf pre name).bind parseUsize) = true ↔
      ∃ n s, bound ≤ n ∧ ParsesAsUsize s n ∧ name = pre ++ s := by
  rw [isSomeAnd_eq_true]
  constructor
  · rintro ⟨v, hv, hb⟩
    obtain ⟨s, hs, hp⟩ := Option.bind_eq_some.mp hv
    exact ⟨v, s, by simpa using hb, (parseUsize_eq_some s v).mp hp,
      (stripPrefixOf_eq_some pre name s).mp hs⟩
  · rintro ⟨n, s, hb, hp, hname⟩
    refine ⟨n, Option.bind_eq_some.mpr ⟨s, ?_, ?_⟩, by simpa using hb⟩
    · exact (stripPrefixOf_eq_some pre name s).mpr hname
    · exact (parseUsize_eq_some s n).mpr hp

/-- C4 as amended: a name is classified memory-I/O exactly when one of the two
prefixes is followed by a string `usize`-parsing (optional `+`, digits, value
below `2^64`) to a version meeting the bound (3 for the javy plugin, 2 for the
functions provider); every other name — overflowing numerals included — is
streamed-stdio. -/
theorem mem_io_provider_classification (name : List Char) :
    is_mem_io_provider name = true ↔ AmendedMemIO name := by
  unfold is_mem_io_provider AmendedMemIO
  rw [← mem_io_branch "shopify_functions_javy_v".toList name 3,
    ← mem_io_branch "shopify_function_v".toList name 2]
  by_cases h1 : isSomeAnd (fun v => decide (3 ≤ v))
      ((stripPrefixOf "shopify_functions_javy_v".toList name).bind parseUsize) = true
  · simp [h1]
  · by_cases h2 : isSomeAnd (fun v => decide (2 ≤ v))
        ((stripPrefixOf "shopify_function_v".toList name).bind parseUsize) = true
    · simp [h1, h2]
    · simp [h1, h2]

/-! `ValidatedModule::new` (`src/validated_module.rs`). The embedded provider
registry is abstracted as the list of provider names it contains; a module is
abstracted as the sequence of its imports' module names. -/

def wasiName : List Char := "wasi_snapshot_preview1".toList

/-- First-seen-order deduplication of the import module names. -/
def dedupImports (imports : List (List Char)) : List (List Char) :=
  imports.foldl (fun acc i => if i ∈ acc then acc else acc ++ [i]) []

/-- `imports.iter().find_map(|import| StandardProviders::get(...))`: the first
deduplicated import present in the provider registry. -/
def findStdImport (imports registry : List (List Char)) : Option (List Char) :=
  imports.find? (fun i => decide (i ∈ registry))

/-- `ValidatedModule::new`: `none` models the `bail!` error; `some std` models
success with the resolved `std_import`. The Rust `if let Some(import) = ...`
guard is the `is_some_and` condition of the single error case. -/
def validatedModuleNew (imports registry : List (List Char)) :
    Option (Option (List Char)) :=
  if isSomeAnd is_mem_io_provider (findStdImport (dedupImports imports) registry) = true
      ∧ wasiName ∈ dedupImports imports then
    none
  else
    some (findStdImport (dedupImports imports) registry)

lemma mem_dedup_aux (l : List (List Char)) :
    ∀ acc i, (i ∈ l.foldl (fun acc i => if i ∈ acc then acc else acc ++ [i]) acc ↔
      i ∈ acc ∨ i ∈ l) := by
  induction l with
  | nil => intro acc i; simp
  | cons x rest ih =>
    intro acc i
    by_cases hx : x ∈ acc
    · rw [List.foldl_cons, if_pos hx, ih]
      constructor
      · rintro (h | h)
        · exact Or.inl h
        · exact Or.inr (List.mem_cons_of_mem x h)
      · rintro (h | h)
        · exact Or.inl h
        · rcases List.mem_cons.mp h with rfl | h
          · exact Or.inl hx
          · exact Or.inr h
    · rw [List.foldl_cons, if_neg hx, ih]
      simp only [List.mem_append, List.mem_singleton, List.mem_cons]
      tauto

lemma mem_dedup (imports : List (List Char)) (i : List Char) :
    i ∈ dedupImports imports ↔ i ∈ imports := by
  unfold dedupImports
  rw [mem_dedup_aux]
  simp

/-- C5: construction fails exactly when the resolved provider import is a
memory-I/O provider and the module also imports `wasi_snapshot_preview1`; it
succeeds for a module importing only WASI, only a memory-I/O provider, or WASI
together with a non-memory-I/O provider. -/
theorem validated_module_wasi_exclusion (imports registry : List (List Char))
    (p : List Char) :
    (validatedModuleNew imports registry = none ↔
        ((∃ q, findStdImport (dedupImports imports) registry = some q ∧
            is_mem_io_provider q = true) ∧ wasiName ∈ imports)) ∧
      validatedModuleNew [wasiName] registry ≠ none ∧
      (is_mem_io_provider p = true → validatedModuleNew [p] registry ≠ none) ∧
      (is_mem_io_provider p = false →
        validatedModuleNew [wasiName, p] registry ≠ none) := by
  have hwasi_not_mem_io : is_mem_io_provider wasiName = false := by decide
  refine ⟨?_, ?_, ?_, ?_⟩
  · unfold validatedModuleNew
    by_cases hcond : isSomeAnd is_mem_io_provider
        (findStdImport (dedupImports imports) registry) = true ∧
        wasiName ∈ dedupImports imports
    · rw [if_pos hcond]
      exact iff_of_true rfl
        ⟨(isSomeAnd_eq_true _ _).mp hcond.1, (mem_dedup _ _).mp hcond.2⟩
    · rw [if_neg hcond]
      refine iff_of_false (by simp) ?_
      rintro ⟨hex, hw⟩
      exact hcond ⟨(isSomeAnd_eq_true _ _).mpr hex, (mem_dedup _ _).mpr hw⟩
  · unfold validatedModuleNew
    rw [if_neg]
    · simp
    · rintro ⟨h1, _⟩
      obtain ⟨q, hq, hmem⟩ := (isSomeAnd_eq_true _ _).mp h1
      have hqmem := List.mem_of_find?_eq_some hq
      rw [mem_dedup] at hqmem
      have hq' : q = wasiName := by simpa using hqmem
      rw [hq', hwasi_not_mem_io] at hmem
      cases hmem
  · intro hmem
    unfold validatedModuleNew
    rw [if_neg]
    · simp
    · rintro ⟨_, h2⟩
      rw [mem_dedup] at h2
      have hwp : wasiName = p := by simpa using h2
      have hc := hwasi_not_mem_io
      rw [hwp, hmem] at hc
      cases hc
  · intro hnm
    unfold validatedModuleNew
    rw [if_neg]
    · simp
    · rintro ⟨h1, _⟩
      obtain ⟨q, hq, hmemq⟩ := (isSomeAnd_eq_true _ _).mp h1
      have hqmem := List.mem_of_find?_eq_some hq
      rw [mem_dedup] at hqmem
      have hq' : q = wasiName ∨ q = p := by simpa using hqmem
      rcases hq' with rfl | rfl
      · rw [hwasi_not_mem_io] at hmemq
        cases hmemq
      · rw [hnm] at hmemq
        cases hmemq

/-- Witness for C5 with a concrete registry and provider name. -/
theorem validated_module_wasi_exclusion_witness :
    (validatedModuleNew ["shopify_function_v2".toList, wasiName]
          ["shopify_function_v2".toList] = none ↔
        ((∃ q, findStdImport
              (dedupImports ["shopify_function_v2".toList, wasiName])
              ["shopify_function_v2".toList] = some q ∧
            is_mem_io_provider q = true) ∧
          wasiName ∈ ["shopify_function_v2".toList, wasiName])) ∧
      validatedModuleNew [wasiName] ["shopify_function_v2".toList] ≠ none ∧
      (is_mem_io_provider "shopify_function_v2".toList = true →
        validatedModuleNew ["shopify_function_v2".toList]
          ["shopify_function_v2".toList] ≠ none) ∧
      (is_mem_io_provider "shopify_function_v2".toList = false →
        validatedModuleNew [wasiName, "shopify_function_v2".toList]
          ["shopify_function_v2".toList] ≠ none) :=
  validated_module_wasi_exclusion ["shopify_function_v2".toList, wasiName]
    ["shopify_function_v2".toList] "shopify_function_v2".toList

/-! Exit-code mapping and log assembly in `run` (`src/engine.rs`). The guest
invocation outcome is abstracted as `Except GuestError Unit`, where `i32Exit`
is the wasmtime trap payload carrying the system-interface exit code. -/

inductive GuestError where
  | i32Exit (code : ℤ)
  | other (msg : String)

/-- `module_result.or_else(...)` in `run`: an exit-code-0 trap becomes
success, an exit-code-`n ≠ 0` trap becomes the error
`module exited with code: n`, and any other error passes through unchanged. -/
def mapModuleResult : Except GuestError Unit → Except String Unit
  | .ok _ => .ok ()
  | .error (.i32Exit c) =>
    if c = 0 then .ok () else .error ("module exited with code: " ++ toString c)
  | .error (.other m) => .error m

/-- The `(logs, success)` pair assembled by `run`: the stderr stream contents
with the error message of the mapped result appended, and
`success = module_result.is_ok()`. -/
def runLogsAndSuccess (stderrContents : String) (result : Except GuestError Unit) :
    String × Bool :=
  let mapped := mapModuleResult result
  let error_logs := match mapped with
    | .ok _ => ""
    | .error e => e
  (stderrContents ++ error_logs,
    match mapped with
    | .ok _ => true
    | .error _ => false)

/-- C6 counterexample: a guest that writes `guest log` to stderr and then
exits with code 0 yields `success = true` but `logs = "guest log" ≠ ""`; the
claim's `logs = ""` only holds when the guest wrote nothing. -/
theorem exit_code_zero_logs_counterexample :
    runLogsAndSuccess "guest log" (Except.error (GuestError.i32Exit 0)) =
        ("guest log", true) ∧
      ("guest log" : String) ≠ "" := by
  constructor
  · simp [runLogsAndSuccess, mapModuleResult, String.append_empty]
  · decide

/-- C6 as amended: exit code 0 gives `success = true` and appends nothing, so
the logs equal the guest's stderr contents (`""` exactly when the guest wrote
nothing); exit code `c ≠ 0` gives `success = false` and logs equal to stderr
followed by `module exited with code: c`; any other error keeps its message,
which is appended with `success = false`. -/
theorem exit_code_mapping (stderrContents : String) (c : ℤ) (m : String) :
    runLogsAndSuccess stderrContents (Except.ok ()) = (stderrContents, true) ∧
      runLogsAndSuccess stderrContents (Except.error (GuestError.i32Exit 0)) =
        (stderrContents, true) ∧
      (c ≠ 0 →
        runLogsAndSuccess stderrContents (Except.error (GuestError.i32Exit c)) =
          (stderrContents ++ ("module exited with code: " ++ toString c), false)) ∧
      runLogsAndSuccess stderrContents (Except.error (GuestError.other m)) =
        (stderrContents ++ m, false) := by
  refine ⟨?_, ?_, ?_, ?_⟩
  · simp [runLogsAndSuccess, mapModuleResult, String.append_empty]
  · simp [runLogsAndSuccess, mapModuleResult, String.append_empty]
  · intro hc
    simp [runLogsAndSuccess, mapModuleResult, hc]
  · rfl

/-- Witness for C6 at concrete stderr contents and exit code 1. -/
theorem exit_code_mapping_witness :
    runLogsAndSuccess "log" (Except.ok ()) = ("log", true) ∧
      runLogsAndSuccess "log" (Except.error (GuestError.i32Exit 0)) = ("log", true) ∧
      ((1 : ℤ) ≠ 0 →
        runLogsAndSuccess "log" (Except.error (GuestError.i32Exit 1)) =
          ("log" ++ ("module exited with code: " ++ toString (1 : ℤ)), false)) ∧
      runLogsAndSuccess "log" (Except.error (GuestError.other "trap")) =
        ("log" ++ "trap", false) :=
  exit_code_mapping "log" 1 "trap"

/-! The `MemoryLimiter` installed on the store (`src/engine.rs`). -/

structure MemoryLimiter where
  max_memory_bytes : ℕ

/-- `ResourceLimiter::memory_growing`: record the maximum `desired` seen and
always allow the growth. -/
def memory_growing (l : MemoryLimiter) (_current desired : ℕ) (_maximum : Option ℕ) :
    MemoryLimiter × Bool :=
  ({ max_memory_bytes := max l.max_memory_bytes desired }, true)

structure GrowthRequest where
  current : ℕ
  desired : ℕ
  maximum : Option ℕ

def runGrowths (l : MemoryLimiter) (reqs : List GrowthRequest) : MemoryLimiter :=
  reqs.foldl (fun l r => (memory_growing l r.current r.desired r.maximum).1) l

/-- `memory_usage = store.data().max_memory_bytes() as u64 / 1024`
(`src/engine.rs` line 189). -/
def memoryUsageOf (l : MemoryLimiter) : ℕ := l.max_memory_bytes / 1024

lemma runGrowths_max (reqs : List GrowthRequest) :
    ∀ a, (runGrowths ⟨a⟩ reqs).max_memory_bytes =
      (reqs.map GrowthRequest.desired).foldl max a := by
  induction reqs with
  | nil => intro a; rfl
  | cons r reqs ih =>
    intro a
    show (runGrowths ⟨max a r.desired⟩ reqs).max_memory_bytes = _
    rw [ih]
    rfl

lemma runGrowths_dvd (reqs : List GrowthRequest)
    (h : ∀ r ∈ reqs, 1024 ∣ r.desired) :
    ∀ a, 1024 ∣ a → 1024 ∣ (runGrowths ⟨a⟩ reqs).max_memory_bytes := by
  induction reqs with
  | nil => intro a ha; exact ha
  | cons r reqs ih =>
    intro a ha
    show 1024 ∣ (runGrowths ⟨max a r.desired⟩ reqs).max_memory_bytes
    refine ih (fun x hx => h x (List.mem_cons_of_mem _ hx)) _ ?_
    rcases max_choice a r.desired with hm | hm
    · rw [hm]; exact ha
    · rw [hm]; exact h r (List.mem_cons_self _ _)

/-- C7: the limiter never refuses a growth, after any sequence of growth
requests it holds the maximum `desired` seen, and — since WebAssembly linear
memories grow in whole 64 KiB pages, every `desired` is a multiple of 1024 —
the reported `memory_usage` (bytes / 1024) times 1024 recovers that maximum
exactly. -/
theorem memory_limiter_highwater (reqs : List GrowthRequest)
    (h : ∀ r ∈ reqs, 1024 ∣ r.desired) :
    (∀ (l : MemoryLimiter) (c d : ℕ) (m : Option ℕ), (memory_growing l c d m).2 = true) ∧
      (runGrowths ⟨0⟩ reqs).max_memory_bytes =
        (reqs.map GrowthRequest.desired).foldl max 0 ∧
      memoryUsageOf (runGrowths ⟨0⟩ reqs) * 1024 =
        (runGrowths ⟨0⟩ reqs).max_memory_bytes := by
  refine ⟨fun l c d m => rfl, runGrowths_max reqs 0, ?_⟩
  have hd : 1024 ∣ (runGrowths ⟨0⟩ reqs).max_memory_bytes :=
    runGrowths_dvd reqs h 0 ⟨0, rfl⟩
  unfold memoryUsageOf
  exact Nat.div_mul_cancel hd

/-- Witness for C7 at a concrete request sequence. -/
theorem memory_limiter_highwater_witness :
    (∀ (l : MemoryLimiter) (c d : ℕ) (m : Option ℕ), (memory_growing l c d m).2 = true) ∧
      (runGrowths ⟨0⟩ [⟨0, 65536, none⟩, ⟨65536, 131072, none⟩]).max_memory_bytes =
        ([(⟨0, 65536, none⟩ : GrowthRequest), ⟨65536, 131072, none⟩].map
          GrowthRequest.desired).foldl max 0 ∧
      memoryUsageOf (runGrowths ⟨0⟩ [⟨0, 65536, none⟩, ⟨65536, 131072, none⟩]) * 1024 =
        (runGrowths ⟨0⟩ [⟨0, 65536, none⟩, ⟨65536, 131072, none⟩]).max_memory_bytes :=
  memory_limiter_highwater [⟨0, 65536, none⟩, ⟨65536, 131072, none⟩] (by
    intro r hr
    rcases List.mem_cons.mp hr with rfl | hr
    · exact ⟨64, rfl⟩
    · rcases List.mem_cons.mp hr with rfl | hr
      · exact ⟨128, rfl⟩
      · cases hr)

/-! The bounded `LogStream` (`src/logs.rs`). A guest write is modelled as the
character sequence produced by `String::from_utf8_lossy`; byte positions are
UTF-8 byte counts. The ANSI colouring applied to the sentinel by `.red()` is
terminal-dependent and omitted. -/

/-- UTF-8 byte length of a character sequence (`str::len`). -/
def strBytes (s : List Char) : ℕ := (s.map Char.utf8Size).sum

def TRUNCATION_SENTINEL : List Char := "...[TRUNCATED]".toList

/-- The longest prefix that fits in `max` bytes and ends on a character
boundary, as found by the decrement loop in `truncate_to_char_boundary`. -/
def takeBytes : List Char → ℕ → List Char
  | [], _ => []
  | c :: rest, m => if c.utf8Size ≤ m then c :: takeBytes rest (m - c.utf8Size) else []

/-- `truncate_to_char_boundary`: returns whether truncation happened and the
(possibly cut) string. -/
def truncate_to_char_boundary (s : List Char) (max : ℕ) : Bool × List Char :=
  if strBytes s ≤ max then (false, s) else (true, takeBytes s max)

def DEFAULT_BOUNDED_LOG_BYTESIZE : ℕ := 1000

structure LogStream where
  logs : List (List Char)
  capacity : ℕ
  current_bytesize : ℕ

/-- `LogStream::default()` / `with_capacity`: empty logs, zero size. -/
def LogStream.mk0 (capacity : ℕ) : LogStream := ⟨[], capacity, 0⟩

/-- `LogStream::append` (the returned byte count, always `buf.len()`, is
omitted). -/
def LogStream.append (st : LogStream) (buf : List Char) : LogStream :=
  if st.capacity < st.current_bytesize then st
  else if buf = [] then st
  else
    let p := truncate_to_char_boundary buf (st.capacity - st.current_bytesize)
    let log := if p.1 then p.2 ++ TRUNCATION_SENTINEL else p.2
    { st with
      current_bytesize := st.current_bytesize + strBytes log,
      logs := st.logs ++ [log] }

/-- `Display for LogStream`: the concatenation of the stored messages. -/
def LogStream.render (st : LogStream) : List Char := st.logs.foldl (· ++ ·) []

lemma strBytes_append (a b : List Char) : strBytes (a ++ b) = strBytes a + strBytes b := by
  simp [strBytes]

lemma takeBytes_le (s : List Char) : ∀ m, strBytes (takeBytes s m) ≤ m := by
  induction s with
  | nil => intro m; simp [takeBytes, strBytes]
  | cons c rest ih =>
    intro m
    unfold takeBytes
    by_cases h : c.utf8Size ≤ m
    · rw [if_pos h]
      have := ih (m - c.utf8Size)
      simp only [strBytes, List.map_cons, List.sum_cons] at *
      omega
    · rw [if_neg h]
      simp [strBytes]

lemma takeBytes_close (s : List Char) :
    ∀ m, m < strBytes s → m ≤ strBytes (takeBytes s m) + 3 := by
  induction s with
  | nil => intro m hm; simp [strBytes] at hm
  | cons c rest ih =>
    intro m hm
    unfold takeBytes
    by_cases h : c.utf8Size ≤ m
    · rw [if_pos h]
      by_cases h2 : m - c.utf8Size < strBytes rest
      · have hrec := ih (m - c.utf8Size) h2
        simp only [strBytes, List.map_cons, List.sum_cons] at hm hrec ⊢
        omega
      · simp only [strBytes, List.map_cons, List.sum_cons] at hm h2 ⊢
        omega
    · rw [if_neg h]
      have h4 := Char.utf8Size_le_four c
      simp only [strBytes, List.map_nil, List.sum_nil]
      omega

lemma sentinel_bytes : strBytes TRUNCATION_SENTINEL = 14 := by decide

/-- C8 as amended, for any capacity (in particular the default 1000): a write
that fits is kept verbatim; an overflowing write is cut at the capacity
boundary and the sentinel `...[TRUNCATED]` is appended after it (not
prepended), pushing the accumulated size past the capacity; once the size
exceeds the capacity every write is discarded. -/
theorem log_stream_append_spec (st : LogStream) (buf : List Char) :
    (st.current_bytesize + strBytes buf ≤ st.capacity → buf ≠ [] →
        (st.append buf).logs = st.logs ++ [buf] ∧
          (st.append buf).current_bytesize = st.current_bytesize + strBytes buf) ∧
      (st.current_bytesize ≤ st.capacity →
        st.capacity < st.current_bytesize + strBytes buf →
        (st.append buf).logs = st.logs ++
            [takeBytes buf (st.capacity - st.current_bytesize) ++ TRUNCATION_SENTINEL] ∧
          st.capacity < (st.append buf).current_bytesize) ∧
      (st.capacity < st.current_bytesize → st.append buf = st) := by
  refine ⟨?_, ?_, ?_⟩
  · intro hfit hne
    have hnc : ¬ st.capacity < st.current_bytesize := by omega
    have htr : truncate_to_char_boundary buf (st.capacity - st.current_bytesize) =
        (false, buf) := by
      unfold truncate_to_char_boundary
      rw [if_pos (by omega)]
    unfold LogStream.append
    rw [if_neg hnc, if_neg hne, htr]
    exact ⟨rfl, rfl⟩
  · intro hle hover
    have hne : buf ≠ [] := by
      intro h
      rw [h] at hover
      simp [strBytes] at hover
      omega
    have hnc : ¬ st.capacity < st.current_bytesize := by omega
    have htr : truncate_to_char_boundary buf (st.capacity - st.current_bytesize) =
        (true, takeBytes buf (st.capacity - st.current_bytesize)) := by
      unfold truncate_to_char_boundary
      rw [if_neg (by omega)]
    unfold LogStream.append
    rw [if_neg hnc, if_neg hne, htr]
    refine ⟨rfl, ?_⟩
    show st.capacity < st.current_bytesize +
      strBytes (takeBytes buf (st.capacity - st.current_bytesize) ++ TRUNCATION_SENTINEL)
    rw [strBytes_append, sentinel_bytes]
    have hclose := takeBytes_close buf (st.capacity - st.current_bytesize) (by omega)
    omega
  · intro hgt
    unfold LogStream.append
    rw [if_pos hgt]

/-- Witness for C8 at the default capacity: a fitting write, then an
overflowing one, then a discarded one. -/
theorem log_stream_append_spec_witness :
    ((LogStream.mk0 DEFAULT_BOUNDED_LOG_BYTESIZE).current_bytesize +
          strBytes ['h', 'i'] ≤ (LogStream.mk0 DEFAULT_BOUNDED_LOG_BYTESIZE).capacity) ∧
      ((LogStream.mk0 DEFAULT_BOUNDED_LOG_BYTESIZE).append ['h', 'i']).logs =
        (LogStream.mk0 DEFAULT_BOUNDED_LOG_BYTESIZE).logs ++ [['h', 'i']] :=
  ⟨by decide,
    ((log_stream_append_spec (LogStream.mk0 DEFAULT_BOUNDED_LOG_BYTESIZE) ['h', 'i']).1
      (by decide) (by decide)).1⟩

lemma takeBytes_replicate_a (n : ℕ) : ∀ m,
    takeBytes (List.replicate n 'a') m = List.replicate (min n m) 'a' := by
  induction n with
  | zero => intro m; simp [takeBytes]
  | succ n ih =>
    intro m
    rw [List.replicate_succ]
    unfold takeBytes
    have ha : ('a' : Char).utf8Size = 1 := by decide
    by_cases h : ('a' : Char).utf8Size ≤ m
    · rw [if_pos h, ih]
      rw [ha] at h ⊢
      have : min (n + 1) m = min n (m - 1) + 1 := by omega
      rw [this, List.replicate_succ]
    · rw [if_neg h]
      rw [ha] at h
      have : min (n + 1) m = 0 := by omega
      rw [this]
      rfl

lemma strBytes_replicate_a (n : ℕ) : strBytes (List.replicate n 'a') = n := by
  unfold strBytes
  rw [List.map_replicate]
  have : ('a' : Char).utf8Size = 1 := by decide
  rw [this, List.sum_replicate]
  simp

/-- C8 counterexample: writing 1001 bytes of `a` to a fresh default stream
yields the 1000-byte cut followed by the appended sentinel `...[TRUNCATED]`;
the accumulated log does not start with the claim's prepended
`[TRUNCATED]...`. -/
theorem log_truncation_counterexample :
    LogStream.render ((LogStream.mk0 DEFAULT_BOUNDED_LOG_BYTESIZE).append
        (List.replicate 1001 'a')) =
      List.replicate 1000 'a' ++ "...[TRUNCATED]".toList ∧
      ¬ ("[TRUNCATED]...".toList <+:
          (List.replicate 1000 'a' ++ "...[TRUNCATED]".toList)) := by
  constructor
  · have hne : List.replicate 1001 'a' ≠ ([] : List Char) := by
      intro h
      have hlen := congrArg List.length h
      rw [List.length_replicate, List.length_nil] at hlen
      omega
    have hnc : ¬ (LogStream.mk0 DEFAULT_BOUNDED_LOG_BYTESIZE).capacity <
        (LogStream.mk0 DEFAULT_BOUNDED_LOG_BYTESIZE).current_bytesize := by
      intro h
      exact absurd h (by decide)
    have htr : truncate_to_char_boundary (List.replicate 1001 'a')
        ((LogStream.mk0 DEFAULT_BOUNDED_LOG_BYTESIZE).capacity -
          (LogStream.mk0 DEFAULT_BOUNDED_LOG_BYTESIZE).current_bytesize) =
        (true, List.replicate 1000 'a') := by
      show truncate_to_char_boundary (List.replicate 1001 'a') (1000 - 0) = _
      unfold truncate_to_char_boundary
      rw [strBytes_replicate_a, if_neg (by omega), takeBytes_replicate_a,
        min_eq_right (by omega)]
    unfold LogStream.append
    rw [if_neg hnc, if_neg hne, htr]
    show LogStream.render ⟨[] ++ [List.replicate 1000 'a' ++ TRUNCATION_SENTINEL], _, _⟩ = _
    unfold LogStream.render
    rw [List.nil_append, List.foldl_cons, List.foldl_nil, List.nil_append]
    rfl
  · intro h
    obtain ⟨t, ht⟩ := h
    have h0 : ("[TRUNCATED]...".toList ++ t).head? =
        (List.replicate 1000 'a' ++ "...[TRUNCATED]".toList).head? :=
      congrArg List.head? ht
    rw [List.head?_append] at h0
    rw [List.head?_append] at h0
    revert h0
    have h1 : ("[TRUNCATED]...".toList).head? = some '[' := by decide
    have h2 : (List.replicate 1000 'a').head? = some 'a' := by
      rw [List.replicate_succ]
      rfl
    rw [h1, h2]
    intro h0
    simp at h0

/-! `BytesContainer::new` in the `Output` role (`src/container.rs`). Byte
vectors are `List ℕ`. The external serde_json / rmp_serde library calls are
passed in as explicit arguments: `parseResult` is the outcome of
`serde_json::from_slice` (resp. `rmp_serde::decode::from_slice`) on the given
bytes, `pretty` is `serde_json::to_string_pretty` (total on decoded values),
`minify` is `serde_json::to_vec`, and `lossy` is `String::from_utf8_lossy`. -/

inductive Codec where
  | json
  | messagepack
  | raw
  deriving DecidableEq

structure BytesContainer where
  raw : List ℕ
  codec : Codec
  json_value : Option Json
  humanized : String
  encoding_error : Option String

/-- `Default for BytesContainer`. -/
def defaultBytesContainer : BytesContainer :=
  { raw := [], codec := .raw, json_value := none, humanized := "<raw codec>",
    encoding_error := none }

/-- The `Codec::Json, BytesContainerType::Output` arm of `BytesContainer::new`:
start from the default, then fill the fields according to the decode result;
on success `raw` is re-minified, on failure only `humanized` and
`encoding_error` are set (so `raw` keeps the default empty value). -/
def bytesContainerOutputJson (raw : List ℕ) (parseResult : Except String Json)
    (pretty : Json → String) (minify : Json → List ℕ) (lossy : List ℕ → String) :
    Except String BytesContainer :=
  let this0 := { defaultBytesContainer with codec := Codec.json }
  match parseResult with
  | .ok json =>
    Except.ok { this0 with
      json_value := some json
      humanized := pretty json
      raw := minify json }
  | .error e =>
    Except.ok { this0 with
      humanized := lossy raw
      encoding_error := some (toString e) }

/-- The `Codec::Messagepack, BytesContainerType::Output` arm: as for JSON but
on success `raw` keeps the given bytes. -/
def bytesContainerOutputMsgpack (raw : List ℕ) (parseResult : Except String Json)
    (pretty : Json → String) (lossy : List ℕ → String) :
    Except String BytesContainer :=
  let this0 := { defaultBytesContainer with codec := Codec.messagepack }
  match parseResult with
  | .ok json =>
    Except.ok { this0 with
      json_value := some json
      humanized := pretty json
      raw := raw }
  | .error e =>
    Except.ok { this0 with
      humanized := lossy raw
      encoding_error := some (toString e) }

/-- C9 counterexample: on a JSON decode failure the constructed container's
`raw` field is the default empty vector, not the given bytes — the bytes
survive only through `humanized`. -/
theorem bytes_container_raw_counterexample :
    bytesContainerOutputJson [120] (Except.error "expected value")
        (fun _ => "") (fun _ => []) (fun _ => "x") =
      Except.ok (⟨[], Codec.json, none, "x", some (toString "expected value")⟩ :
        BytesContainer) ∧
      ([120] : List ℕ) ≠ [] := by
  constructor
  · rfl
  · intro h
    cases h

/-- C9 as amended: output-role construction never fails for the JSON and
MessagePack codecs; on decode success `json_value` and the pretty-printed
`humanized` are set with `encoding_error = none` (`raw` is the re-minified
encoding for JSON and the given bytes for MessagePack); on decode failure
`humanized` is the lossy-UTF-8 rendering of the given bytes, `encoding_error`
is set, `json_value = none`, and `raw` is left at the default empty value —
so at most one of `json_value` and `encoding_error` is ever set. -/
theorem bytes_container_output_spec (raw : List ℕ) (parseResult : Except String Json)
    (pretty : Json → String) (minify : Json → List ℕ) (lossy : List ℕ → String) :
    (∀ j, parseResult = Except.ok j →
        bytesContainerOutputJson raw parseResult pretty minify lossy =
          Except.ok (⟨minify j, Codec.json, some j, pretty j, none⟩ :
            BytesContainer) ∧
        bytesContainerOutputMsgpack raw parseResult pretty lossy =
          Except.ok (⟨raw, Codec.messagepack, some j, pretty j, none⟩ :
            BytesContainer)) ∧
      (∀ e, parseResult = Except.error e →
        bytesContainerOutputJson raw parseResult pretty minify lossy =
          Except.ok (⟨[], Codec.json, none, lossy raw, some (toString e)⟩ :
            BytesContainer) ∧
        bytesContainerOutputMsgpack raw parseResult pretty lossy =
          Except.ok (⟨[], Codec.messagepack, none, lossy raw, some (toString e)⟩ :
            BytesContainer)) := by
  constructor
  · intro j hj
    subst hj
    exact ⟨rfl, rfl⟩
  · intro e he
    subst he
    exact ⟨rfl, rfl⟩

/-- Witness for C9 on both decode outcomes with concrete codecs. -/
theorem bytes_container_output_spec_witness :
    (∀ j, (Except.ok Json.null : Except String Json) = Except.ok j →
        bytesContainerOutputJson [123] (Except.ok Json.null)
            (fun _ => "null") (fun _ => [110]) (fun _ => "?") =
          Except.ok (⟨(fun _ : Json => [110]) j, Codec.json, some j,
            (fun _ : Json => "null") j, none⟩ : BytesContainer) ∧
        bytesContainerOutputMsgpack [123] (Except.ok Json.null)
            (fun _ => "null") (fun _ => "?") =
          Except.ok (⟨[123], Codec.messagepack, some j,
            (fun _ : Json => "null") j, none⟩ : BytesContainer)) ∧
      (∀ e, (Except.ok Json.null : Except String Json) = Except.error e →
        bytesContainerOutputJson [123] (Except.ok Json.null)
            (fun _ => "null") (fun _ => [110]) (fun _ => "?") =
          Except.ok (⟨[], Codec.json, none, (fun _ : List ℕ => "?") [123],
            some (toString e)⟩ : BytesContainer) ∧
        bytesContainerOutputMsgpack [123] (Except.ok Json.null)
            (fun _ => "null") (fun _ => "?") =
          Except.ok (⟨[], Codec.messagepack, none, (fun _ : List ℕ => "?") [123],
            some (toString e)⟩ : BytesContainer)) :=
  bytes_container_output_spec [123] (Except.ok Json.null)
    (fun _ => "null") (fun _ => [110]) (fun _ => "?")

end FunctionRunner
